import Mathlib

/-!
Verification of the SMU-control PCM waveform compiler and playback scheduler
(`pcm.py`), as a shallow embedding in Lean 4.

Modelling conventions:
* Python `Decimal` values are modelled as exact rationals (`Rat`).  All inputs
  appearing in the program text are exact decimal literals, and
  `Decimal.as_integer_ratio()` returns the reduced numerator/denominator pair,
  which is exactly `Rat.num`/`Rat.den`.
* The `while` loop in the source's `gcd` helper is modelled with a structural
  fuel parameter (the fuel bound `b + 1` always suffices, see `gcdAux_eq`),
  so that the definition evaluates by kernel reduction.
* Mutable `Waveform` objects are modelled by a heap (`List Waveform`); the
  `waveforms` dict maps ids to heap indices and the `replay` list records
  heap references, matching Python object aliasing.
* Python exceptions that no handler catches (`ValueError` from `int()`,
  `AttributeError` from a missing `tstep`, `KeyError` from a dict miss) are
  modelled by the `Crash` type; a crash aborts the processing of the whole
  input, exactly as an uncaught exception aborts `main`.
-/

/-! ## The rational time-quantization engine (`Waveform.findCommonTimeStep`) -/

/-- Fuel-driven structural version of the source's `gcd` loop
(`while b: a,b = b, a % b; return a`). -/
def gcdAux : Nat → Nat → Nat → Nat
  | 0, a, _ => a
  | fuel + 1, a, b => if b = 0 then a else gcdAux fuel b (a % b)

/-- `gcd(a,b)` from `findCommonTimeStep`: Euclid's algorithm by repeated
remainder.  Fuel `b + 1` always suffices (`gcd_py_eq`). -/
def gcd_py (a b : Nat) : Nat := gcdAux (b + 1) a b

/-- `lcm(a,b) = a * b // gcd(a,b)` from `findCommonTimeStep`. -/
def lcm_py (a b : Nat) : Nat := a * b / gcd_py a b

/-- `lcmm(arglist) = functools.reduce(lcm, arglist)` from `findCommonTimeStep`.
`reduce` folds from the left starting at the list head; on an empty list the
Python call raises `TypeError` (never reached: `addPoint` always passes the
just-extended, hence non-empty, point list), modelled here by returning 0. -/
def lcmm : List Nat → Nat
  | [] => 0
  | d :: ds => ds.foldl lcm_py d

/-! ### The `decimal` context

The source performs its divisions and multiplications on Python `Decimal`
values under the default context: results are kept exactly when they fit in
28 significant digits and are otherwise correctly rounded to 28 significant
digits with ROUND_HALF_EVEN.  (The `Decimal` *constructor* does not round,
so the parsed sample times themselves are exact.)  The following functions
model the value of a context-rounded result; they are modelled from the
documented semantics of Python's `decimal` module and validated against it.
-/

/-- Base-10 integer logarithm of a natural number, fuel-driven so that it
evaluates by kernel reduction (fuel `n` always suffices). -/
def natLog10Aux : Nat → Nat → Nat
  | 0, _ => 0
  | fuel + 1, n => if n < 10 then 0 else natLog10Aux fuel (n / 10) + 1

def natLog10 (n : Nat) : Nat := natLog10Aux n n

/-- `10 ^ e` for an integer exponent, as a rational. -/
def pow10 : Int → Rat
  | .ofNat n => ((10 ^ n : Nat) : Rat)
  | .negSucc n => 1 / ((10 ^ (n + 1) : Nat) : Rat)

/-- The adjusted (base-10) exponent of a non-zero rational: the unique `n`
with `10^n ≤ |q| < 10^(n+1)`, found from the digit counts of numerator and
denominator plus one comparison. -/
def adjExp (q : Rat) : Int :=
  let e0 : Int := (natLog10 q.num.natAbs : Int) - (natLog10 q.den : Int)
  if |q| < pow10 e0 then e0 - 1 else e0

/-- Round a rational to the nearest integer, ties to even
(ROUND_HALF_EVEN, the decimal module's default). -/
def roundHalfEven (x : Rat) : Int :=
  let f := x.floor
  let r := x - (f : Rat)
  if r < 1/2 then f
  else if 1/2 < r then f + 1
  else if f % 2 = 0 then f else f + 1

/-- The value of a decimal arithmetic result after rounding to the default
context's 28 significant digits (exact results of at most 28 significant
digits pass through unchanged). -/
def decRound (q : Rat) : Rat :=
  if q = 0 then 0
  else
    let scale := pow10 (27 - adjExp q)
    ((roundHalfEven (q * scale) : Int) : Rat) / scale

/-- `Decimal` division under the default context. -/
def decDiv (a b : Rat) : Rat := decRound (a / b)

/-- `Decimal` multiplication under the default context. -/
def decMul (a b : Rat) : Rat := decRound (a * b)

/-- `Waveform.findCommonTimeStep`: `1 / LCM` of the times' exact
denominators, where the final division `Decimal('1') / Decimal(lcm_denom)`
is performed under the default decimal context and is therefore rounded
whenever the exact `1 / LCM` needs more than 28 significant digits. -/
def findCommonTimeStep (tv : List (Rat × Rat)) : Rat :=
  let times := tv.map (fun p => p.1)
  let denominators := times.map (fun t => t.den)
  let lcm_denom := lcmm denominators
  decDiv 1 (lcm_denom : Rat)

/-- The quantum the specification prescribes (§4.2): `1 / LCM` of the exact
denominators computed in exact rational arithmetic; named separately so it
can be compared against the code's context-rounded `findCommonTimeStep`. -/
def findCommonTimeStepExact (tv : List (Rat × Rat)) : Rat :=
  1 / ((lcmm (tv.map fun p => p.1.den) : Nat) : Rat)

/-! ## `Waveform` -/

/-- One playable waveform (`class Waveform` in `pcm.py`).  `tstep` is `none`
until the first `addPoint` call, modelling that the Python attribute does not
exist before then (reading it raises `AttributeError`). -/
structure Waveform where
  id : Int
  points : List (Rat × Rat)
  vlist : List Rat
  duration : Rat
  tstep : Option Rat
deriving DecidableEq, Repr

/-- `Waveform.__init__`. -/
def Waveform.mkNew (num : Int) : Waveform :=
  { id := num, points := [], vlist := [], duration := 0, tstep := none }

/-- The expansion loop of `addPoint`: starting from an empty `vlist`, each
`[t, v]` pair contributes `copies = int(t / tstep)` copies of `v`.  The
division `t / self.tstep` is a context-rounded `Decimal` division; `int()`
truncates its value and `range` yields nothing on a negative count, which
combined is `Int.toNat ∘ Rat.floor` of the rounded quotient. -/
def expandPoints (points : List (Rat × Rat)) (ts : Rat) : List Rat :=
  points.foldl (fun acc p => acc ++ List.replicate ((decDiv p.1 ts).floor.toNat) p.2) []

/-- The expansion the specification prescribes: each sample contributes
exactly `time / quantum` copies computed by exact rational division; named
separately so it can be compared against the code's context-rounded
`expandPoints`. -/
def expandPointsExact (points : List (Rat × Rat)) (ts : Rat) : List Rat :=
  points.foldl (fun acc p => acc ++ List.replicate ((p.1 / ts).floor.toNat) p.2) []

/-- `Waveform.addPoint`: append the point, recompute the timebase over the
whole point list, rebuild the expansion from scratch, and recompute the
duration (`len(self.vlist) * self.tstep`, a context-rounded `Decimal`
multiplication). -/
def Waveform.addPoint (w : Waveform) (time voltage : Rat) : Waveform :=
  let points := w.points ++ [(time, voltage)]
  let ts := findCommonTimeStep points
  let vlist := expandPoints points ts
  { w with points := points, tstep := some ts, vlist := vlist,
           duration := decMul (vlist.length : Rat) ts }

/-- A waveform built by adding the given points in order to a fresh waveform. -/
def mkWave (pts : List (Rat × Rat)) : Waveform :=
  pts.foldl (fun w p => w.addPoint p.1 p.2) (Waveform.mkNew 0)

/-! ## Input tokens

A line of the input file is split on whitespace into tokens.  The behaviour of
a token in `main` is determined entirely by its lexical class:
* `intLit n` — an integer literal such as `5` or `-3`: `float()` succeeds
  (so `is_number` is true), `int()` succeeds, `Decimal()` gives `n`;
* `decLit q` — a numeric literal that is not an integer literal, such as
  `0.5` or `1e3`: `float()` succeeds, `Decimal()` gives the exact value `q`,
  but `int()` raises `ValueError`;
* `word s` — a non-numeric token not starting with `#`, such as `DEF`, `W`,
  `ON`: `float()` raises (so `is_number` is false);
* `hash` — a token whose first character is `#` (comment marker).
-/

inductive Token where
  | intLit (n : Int)
  | decLit (q : Rat)
  | word (s : String)
  | hash
deriving DecidableEq, Repr

/-- `is_number(s)`: whether `float(s)` succeeds. -/
def Token.is_number : Token → Bool
  | .intLit _ => true
  | .decLit _ => true
  | _ => false

/-- `s[0] == '#'`: whether the token starts the comment marker. -/
def Token.isHash : Token → Bool
  | .hash => true
  | _ => false

/-- `Decimal(s)`: the exact value of a numeric token.  On a non-numeric token
`Decimal()` raises; that case is unreachable where this is used (both guards
`is_number` have already passed). -/
def Token.decimalValue : Token → Rat
  | .intLit n => (n : Rat)
  | .decLit q => q
  | _ => 0

/-- `int(s)`: succeeds exactly on integer literals; on any other token on
which it is attempted it raises `ValueError` (`none`). -/
def Token.toIntOpt : Token → Option Int
  | .intLit n => some n
  | _ => none

/-! ## Events, crashes and program state -/

/-- The classes of recoverable `print("Error - ...")` messages in `main`. -/
inductive ErrKind where
  | nonNumericData   -- "non-numeric data on line N"
  | defNoId          -- "waveform definition without ID on line N"
  | defNegativeId    -- "waveform definition with negative ID on line N"
  | playNoId         -- "waveform operation missing ID on line N"
  | playNotFound     -- "waveform requested does not exist, on line N"
  | replayBadCount   -- "unusable replay count found on line N"
deriving DecidableEq, Repr

/-- Observable effects: SMU collaborator calls and reported errors. -/
inductive Event where
  | prepare (vlist : List Rat) (tstep : Rat) (compliance : Rat)
      -- smu.prepareVoltageListSweep(wf.vlist, wf.tstep, compliance=0.1)
  | initiate                      -- smu.initiate()
  | outputEnable (en : Bool)      -- smu.enableOutput(...)
  | errorMsg (kind : ErrKind) (ln : Nat)  -- print("Error - ... on line ln")
deriving DecidableEq, Repr

/-- Uncaught Python exceptions that abort the whole run. -/
inductive Crash where
  | intValueError    -- int() applied to a numeric but non-integer literal
  | missingTstep     -- AttributeError: Waveform object has no attribute tstep
  | keyError         -- dict/heap lookup failure
deriving DecidableEq, Repr

/-- The mutable state of `main`'s input-processing loop.  `heap` holds the
allocated `Waveform` objects; `waveforms` maps ids to heap indices (the
Python dict holds object references); `replay` records `['W', wf, plays]`
entries as (heap index, plays); `events` is the observable trace so far. -/
structure PState where
  heap : List Waveform
  waveforms : List (Int × Nat)
  current : Int
  replay : List (Nat × Nat)
  events : List Event
deriving DecidableEq, Repr

/-- Python dict lookup on the id-keyed waveform table. -/
def dictLookup (d : List (Int × Nat)) (k : Int) : Option Nat :=
  match d with
  | [] => none
  | p :: rest => if p.1 = k then some p.2 else dictLookup rest k

/-- Python dict assignment `d[k] = v`: overwrite the binding if the key is
present, otherwise append a new binding. -/
def dictSet (d : List (Int × Nat)) (k : Int) (v : Nat) : List (Int × Nat) :=
  match d with
  | [] => [(k, v)]
  | p :: rest => if p.1 = k then (k, v) :: rest else p :: dictSet rest k v

/-- State at the top of `main`'s loop: waveform 0 pre-created and current. -/
def initState : PState :=
  { heap := [Waveform.mkNew 0], waveforms := [(0, 0)], current := 0,
    replay := [], events := [] }

def addEvent (s : PState) (e : Event) : PState :=
  { s with events := s.events ++ [e] }

/-- A recoverable per-line error report. -/
def errLine (s : PState) (k : ErrKind) (ln : Nat) : PState :=
  addEvent s (.errorMsg k ln)

/-- The replay-log entries resolved to (waveform id, iterations) through the
heap, i.e. what the recorded object references denote. -/
def replayIds (s : PState) : List (Int × Nat) :=
  s.replay.map (fun r => ((s.heap.getD r.1 (Waveform.mkNew (-1))).id, r.2))

/-! ## The playback scheduler -/

/-- `playWaveform(wf, smu, iterations)`: evaluate `wf.vlist` and `wf.tstep`
(raising `AttributeError` if `tstep` was never set, before any device
command), then issue one `prepareVoltageListSweep` and `iterations` calls to
`initiate`.  The host-side `time.sleep` pacing has no observable effect on
the state and is not recorded. -/
def playWaveform (wf : Waveform) (iterations : Nat) : Except Crash (List Event) :=
  match wf.tstep with
  | none => .error .missingTstep
  | some ts => .ok (Event.prepare wf.vlist ts (1/10) :: List.replicate iterations .initiate)

/-- The iteration count of a play line: `plays = 1`, overridden by
`int(tokens[2])` when a third, numeric token is present, clamped to ≥ 1.
`int()` on a numeric non-integer third token raises `ValueError`. -/
def playsOf (rest : List Token) : Except Crash Nat :=
  match rest with
  | [] => .ok 1
  | t2 :: _ =>
    if t2.is_number then
      match t2.toIntOpt with
      | none => .error .intValueError
      | some p => .ok (if p < 1 then 1 else p).toNat
    else .ok 1

/-- Events of replaying one recorded `['W', wf, plays]` entry. -/
def playRecordEvents (heap : List Waveform) (r : Nat × Nat) : Except Crash (List Event) :=
  match heap[r.1]? with
  | none => .error .keyError
  | some wf => playWaveform wf r.2

/-- Events of one pass over the replay log (`for r in replay: ...`). -/
def replayRound (heap : List Waveform) : List (Nat × Nat) → Except Crash (List Event)
  | [] => .ok []
  | r :: rs => do
    let e ← playRecordEvents heap r
    let es ← replayRound heap rs
    .ok (e ++ es)

/-- `for n in range(repeats): replay.extend(replay)` — each iteration doubles
the list in place. -/
def doubleN (l : List (Nat × Nat)) : Nat → List (Nat × Nat)
  | 0 => l
  | n + 1 => doubleN (l ++ l) n

/-! ## Processing one input line (`main`'s loop body) -/

/-- The `D`/`DEF` branch: unconditionally create and store a **new** waveform
object under `idnum` and make it current. -/
def defOp (s : PState) (ln : Nat) (t1 : Token) : PState × Option Crash :=
  if t1.is_number then
    match t1.toIntOpt with
    | none => (s, some .intValueError)
    | some idnum =>
      if idnum < 0 then (errLine s .defNegativeId ln, none)
      else ({ s with heap := s.heap ++ [Waveform.mkNew idnum],
                     waveforms := dictSet s.waveforms idnum s.heap.length,
                     current := idnum }, none)
  else (errLine s .defNoId ln, none)

/-- The `OUT`/`out` branch. -/
def outOp (s : PState) (t1 : Token) : PState × Option Crash :=
  match t1 with
  | .word w =>
    if w = "ON" ∨ w = "on" then (addEvent s (.outputEnable true), none)
    else if w = "OFF" ∨ w = "off" then (addEvent s (.outputEnable false), none)
    else (s, none)
  | _ => (s, none)

/-- The `W`/`w` branch: select the waveform, determine the iteration count,
play it, and append a replay record referencing the played object. -/
def playOp (s : PState) (ln : Nat) (t1 : Token) (rest : List Token) : PState × Option Crash :=
  if t1.is_number then
    match t1.toIntOpt with
    | none => (s, some .intValueError)
    | some idnum =>
      if idnum < 0 ∨ dictLookup s.waveforms idnum = none then
        (errLine s .playNotFound ln, none)
      else
        match dictLookup s.waveforms idnum with
        | none => (s, some .keyError)
        | some idx =>
          match s.heap[idx]? with
          | none => (s, some .keyError)
          | some wf =>
            match playsOf rest with
            | .error c => (s, some c)
            | .ok plays =>
              match playWaveform wf plays with
              | .error c => (s, some c)
              | .ok evs =>
                ({ s with events := s.events ++ evs,
                          replay := s.replay ++ [(idx, plays)] }, none)
  else (errLine s .playNoId ln, none)

/-- The `R`/`r` branch: replay every recorded play operation `repeats` times
(appending nothing to the log during the passes), then extend the log with
itself `repeats` times (doubling it each time).  Events emitted before a
crash inside a replay pass are not tracked (no claim observes them). -/
def replayOp (s : PState) (ln : Nat) (t1 : Token) : PState × Option Crash :=
  if t1.is_number then
    match t1.toIntOpt with
    | none => (s, some .intValueError)
    | some n =>
      if n < 1 then (errLine s .replayBadCount ln, none)
      else
        match replayRound s.heap s.replay with
        | .error c => (s, some c)
        | .ok evs =>
          ({ s with events := s.events ++ (List.replicate n.toNat evs).flatten,
                    replay := doubleN s.replay n.toNat }, none)
  else (errLine s .replayBadCount ln, none)

/-- One iteration of `main`'s loop over input lines: skip short lines and
comments, dispatch data lines to `addPoint` on the current waveform, and
operation lines to their branch. -/
def procLine (s : PState) (ln : Nat) (tokens : List Token) : PState × Option Crash :=
  match tokens with
  | [] => (s, none)
  | [_] => (s, none)
  | t0 :: t1 :: rest =>
    if t0.isHash || t1.isHash then (s, none)
    else if t0.is_number then
      if t1.is_number then
        match dictLookup s.waveforms s.current with
        | none => (s, some .keyError)
        | some idx =>
          match s.heap[idx]? with
          | none => (s, some .keyError)
          | some wf =>
            ({ s with heap :=
                s.heap.set idx (wf.addPoint t0.decimalValue t1.decimalValue) }, none)
      else (errLine s .nonNumericData ln, none)
    else
      match t0 with
      | .word op =>
        if op = "D" ∨ op = "DEF" then defOp s ln t1
        else if op = "OUT" ∨ op = "out" then outOp s t1
        else if op = "W" ∨ op = "w" then playOp s ln t1 rest
        else if op = "R" ∨ op = "r" then replayOp s ln t1
        else (s, none)
      | _ => (s, none)

/-- Process the remaining lines; `ln` is the number of lines already
consumed.  An uncaught exception stops processing and surfaces the crash. -/
def processLines (s : PState) (ln : Nat) : List (List Token) → PState × Option Crash
  | [] => (s, none)
  | line :: rest =>
    match procLine s (ln + 1) line with
    | (s1, some c) => (s1, some c)
    | (s1, none) => processLines s1 (ln + 1) rest

/-- Run a whole input program from `main`'s initial state. -/
def runProgram (lines : List (List Token)) : PState × Option Crash :=
  processLines initState 0 lines

/-! ## Auxiliary definitions used by the theorems -/

/-- The state invariant maintained by `main`'s loop: the current-waveform
pointer is a key of the waveform dict, and every heap reference held by the
dict or the replay log is in range. -/
def StateInv (s : PState) : Prop :=
  (dictLookup s.waveforms s.current).isSome = true ∧
  (∀ p ∈ s.waveforms, p.2 < s.heap.length) ∧
  (∀ r ∈ s.replay, r.1 < s.heap.length)

/-- The waveform object produced by `DEF 1` followed by the sample line
`0.5 5` (used as a concrete test fixture). -/
def wfB : Waveform :=
  { id := 1, points := [(1/2, 5)], vlist := [5], duration := 1/2,
    tstep := some (1/2) }

/-- The program state after `DEF 1` and `0.5 5` (a concrete test fixture). -/
def stateB : PState :=
  { heap := [Waveform.mkNew 0, wfB], waveforms := [(0, 0), (1, 1)],
    current := 1, replay := [], events := [] }

/-- A fixture state carrying one replay record `(1, 2)`. -/
def stateC : PState :=
  { heap := [Waveform.mkNew 0, wfB], waveforms := [(0, 0), (1, 1)],
    current := 1, replay := [(1, 2)], events := [] }

/-! ## Correctness of the GCD/LCM helpers -/

theorem gcdAux_eq (fuel : Nat) : ∀ a b : Nat, b < fuel → gcdAux fuel a b = Nat.gcd b a := by
  induction fuel with
  | zero => intro a b h; omega
  | succ f ih =>
    intro a b h
    simp only [gcdAux]
    by_cases hb : b = 0
    · simp [hb]
    · rw [if_neg hb,
        ih b (a % b) (Nat.lt_of_lt_of_le (Nat.mod_lt a (Nat.pos_of_ne_zero hb))
          (Nat.le_of_lt_succ h))]
      exact (Nat.gcd_rec b a).symm

theorem gcd_py_eq (a b : Nat) : gcd_py a b = Nat.gcd b a :=
  gcdAux_eq (b + 1) a b (Nat.lt_succ_self b)

theorem lcm_py_eq (a b : Nat) : lcm_py a b = Nat.lcm a b := by
  unfold lcm_py Nat.lcm
  rw [gcd_py_eq, Nat.gcd_comm]

theorem foldl_lcm_py (l : List Nat) (a : Nat) :
    l.foldl lcm_py a = l.foldl Nat.lcm a := by
  induction l generalizing a with
  | nil => rfl
  | cons d ds ih => simp only [List.foldl_cons, lcm_py_eq, ih]

theorem foldl_lcm_pos (l : List Nat) : ∀ a : Nat, 0 < a → (∀ d ∈ l, 0 < d) →
    0 < l.foldl Nat.lcm a := by
  induction l with
  | nil => intro a ha _; exact ha
  | cons d ds ih =>
    intro a ha hl
    simp only [List.foldl_cons]
    refine ih (Nat.lcm a d) ?_ (fun x hx => hl x (List.mem_cons_of_mem d hx))
    exact Nat.pos_of_ne_zero
      (Nat.lcm_ne_zero (Nat.pos_iff_ne_zero.mp ha)
        (Nat.pos_iff_ne_zero.mp (hl d (List.mem_cons_self d ds))))

theorem dvd_foldl_lcm_init (l : List Nat) : ∀ a : Nat, a ∣ l.foldl Nat.lcm a := by
  induction l with
  | nil => intro a; exact dvd_rfl
  | cons d ds ih =>
    intro a
    simp only [List.foldl_cons]
    exact dvd_trans (Nat.dvd_lcm_left a d) (ih (Nat.lcm a d))

theorem dvd_foldl_lcm_mem (l : List Nat) : ∀ a d : Nat, d ∈ l → d ∣ l.foldl Nat.lcm a := by
  induction l with
  | nil => intro a d hd; cases hd
  | cons x xs ih =>
    intro a d hd
    simp only [List.foldl_cons]
    rcases List.mem_cons.mp hd with h | h
    · subst h
      exact dvd_trans (Nat.dvd_lcm_right a d) (dvd_foldl_lcm_init xs (Nat.lcm a d))
    · exact ih (Nat.lcm a x) d h

theorem findCommonTimeStep_eq (tv : List (Rat × Rat)) :
    findCommonTimeStep tv = decDiv 1 ((lcmm (tv.map fun p => p.1.den) : Nat) : Rat) := by
  simp only [findCommonTimeStep, List.map_map]
  rfl

/-- The LCM of the denominators of a non-empty list of pairs is positive and
divisible by each denominator. -/
theorem lcmm_dens_spec (q : Rat × Rat) (qs : List (Rat × Rat)) :
    0 < lcmm ((q :: qs).map fun p => p.1.den) ∧
    ∀ p ∈ q :: qs, p.1.den ∣ lcmm ((q :: qs).map fun p => p.1.den) := by
  simp only [List.map_cons, lcmm, foldl_lcm_py]
  constructor
  · refine foldl_lcm_pos _ _ q.1.pos ?_
    intro d hd
    obtain ⟨p, _, rfl⟩ := List.mem_map.mp hd
    exact p.1.pos
  · intro p hp
    rcases List.mem_cons.mp hp with h | h
    · subst h; exact dvd_foldl_lcm_init _ _
    · exact dvd_foldl_lcm_mem _ _ _ (List.mem_map_of_mem (fun p => p.1.den) h)

/-- A rational whose denominator divides `L ≠ 0` is an integer multiple of
`1 / L`. -/
theorem rat_eq_int_mul_inv (t : Rat) (L : Nat) (hL : L ≠ 0) (hdvd : t.den ∣ L) :
    ∃ k : Int, t = (k : Rat) * (1 / (L : Rat)) := by
  obtain ⟨m, hm⟩ := hdvd
  have hm0 : m ≠ 0 := by
    rintro rfl
    exact hL (by simpa using hm)
  refine ⟨t.num * (m : Int), ?_⟩
  have hden : ((t.den : ℚ)) ≠ 0 := Nat.cast_ne_zero.mpr t.den_nz
  have hmq : ((m : ℚ)) ≠ 0 := Nat.cast_ne_zero.mpr hm0
  have h1 : ((L : ℚ)) = (t.den : ℚ) * (m : ℚ) := by exact_mod_cast hm
  rw [h1]
  push_cast
  rw [mul_one_div, mul_div_mul_right _ _ hmq, Rat.num_div_den]

/-- Every sample time of a non-empty list is an exact integer multiple of
the derived common time step. -/
theorem quantum_exact (tv : List (Rat × Rat)) (h : tv ≠ []) :
    ∀ p ∈ tv, ∃ k : Int, p.1 = (k : Rat) * findCommonTimeStepExact tv := by
  intro p hp
  obtain ⟨q, qs, rfl⟩ := List.exists_cons_of_ne_nil h
  obtain ⟨hpos, hdvd⟩ := lcmm_dens_spec q qs
  unfold findCommonTimeStepExact
  exact rat_eq_int_mul_inv p.1 _ (Nat.pos_iff_ne_zero.mp hpos) (hdvd p hp)

/-- **C1** (code bug): the quantum the claim and §4.2 describe — the exact
`1 / LCM` of the sample times' denominators — does exactly divide every
recorded sample time (first conjunct).  The program, however, computes that
division under the default 28-significant-digit decimal context, and at the
reachable sample time `2⁻⁵⁰` (an exact 50-digit decimal literal whose
`1 / LCM` needs 35 significant digits) the program's quantum differs from
the exact `1 / LCM`, the exact rational division of the time by the
program's quantum has a non-trivial denominator (a non-zero remainder), and
no integer multiple of the program's quantum equals the time. -/
theorem c1_quantum_divides :
    (∀ (tv : List (Rat × Rat)), tv ≠ [] →
      ∀ p ∈ tv, ∃ k : Int, p.1 = (k : Rat) * findCommonTimeStepExact tv) ∧
    findCommonTimeStep [((1 : Rat)/2^50, 1)]
      ≠ findCommonTimeStepExact [((1 : Rat)/2^50, 1)] ∧
    (((1 : Rat)/2^50) / findCommonTimeStep [((1 : Rat)/2^50, 1)]).den ≠ 1 ∧
    ((∃ k : Int, ((1 : Rat)/2^50)
        = (k : Rat) * findCommonTimeStep [((1 : Rat)/2^50, 1)]) → False) := by
  refine ⟨quantum_exact, by with_unfolding_all decide,
    by with_unfolding_all decide, ?_⟩
  rintro ⟨k, hk⟩
  have hne : findCommonTimeStep [((1 : Rat)/2^50, 1)] ≠ 0 := by
    with_unfolding_all decide
  have hq : ((1 : Rat)/2^50) / findCommonTimeStep [((1 : Rat)/2^50, 1)]
      = (k : Rat) := by
    nth_rewrite 1 [hk]
    rw [mul_div_assoc, div_self hne, mul_one]
  have hden : (((1 : Rat)/2^50) / findCommonTimeStep [((1 : Rat)/2^50, 1)]).den
      = 1 := by
    rw [hq]
    exact Rat.den_intCast k
  have hden1 : (((1 : Rat)/2^50) / findCommonTimeStep [((1 : Rat)/2^50, 1)]).den
      ≠ 1 := by
    with_unfolding_all decide
  exact hden1 hden

/-- Witness for C1 at the concrete sample list `[(0.1, 1), (0.2, 2)]`. -/
theorem c1_witness :
    ∃ k : Int, ((1 : ℚ)/10) =
      (k : Rat) * findCommonTimeStepExact [((1 : ℚ)/10, 1), ((1 : ℚ)/5, 2)] :=
  c1_quantum_divides.1 [((1 : ℚ)/10, 1), ((1 : ℚ)/5, 2)] (by simp)
    ((1 : ℚ)/10, 1) (by simp)

/-! ## Structure of the expansion built by `addPoint` -/

theorem addPoint_points (w : Waveform) (t v : Rat) :
    (w.addPoint t v).points = w.points ++ [(t, v)] := rfl

theorem foldl_addPoint_points (pts : List (Rat × Rat)) : ∀ w : Waveform,
    (pts.foldl (fun w p => w.addPoint p.1 p.2) w).points = w.points ++ pts := by
  induction pts with
  | nil => intro w; simp
  | cons p ps ih =>
    intro w
    simp only [List.foldl_cons, ih, addPoint_points, List.append_assoc,
      List.singleton_append]

theorem mkWave_points (pts : List (Rat × Rat)) : (mkWave pts).points = pts := by
  simpa [Waveform.mkNew] using foldl_addPoint_points pts (Waveform.mkNew 0)

theorem mkWave_concat (ps : List (Rat × Rat)) (p : Rat × Rat) :
    mkWave (ps ++ [p]) = (mkWave ps).addPoint p.1 p.2 := by
  simp [mkWave, List.foldl_append]

/-- Fields of a waveform built from a non-empty point list. -/
theorem mkWave_fields (pts : List (Rat × Rat)) (h : pts ≠ []) :
    (mkWave pts).tstep = some (findCommonTimeStep pts) ∧
    (mkWave pts).vlist = expandPoints pts (findCommonTimeStep pts) ∧
    (mkWave pts).duration =
      decMul ((expandPoints pts (findCommonTimeStep pts)).length : Rat)
        (findCommonTimeStep pts) := by
  obtain ⟨ps, p, rfl⟩ := (List.eq_nil_or_concat pts).resolve_left h
  rw [List.concat_eq_append, mkWave_concat]
  have hp : (mkWave ps).points = ps := mkWave_points ps
  simp [Waveform.addPoint, hp]

theorem expandPoints_eq_flatten (pts : List (Rat × Rat)) (ts : Rat) :
    expandPoints pts ts
      = (pts.map (fun p => List.replicate ((decDiv p.1 ts).floor.toNat) p.2)).flatten := by
  suffices h : ∀ acc : List Rat,
      pts.foldl (fun acc p => acc ++ List.replicate ((decDiv p.1 ts).floor.toNat) p.2) acc
        = acc ++ (pts.map (fun p => List.replicate ((decDiv p.1 ts).floor.toNat) p.2)).flatten by
    simpa [expandPoints] using h []
  induction pts with
  | nil => intro acc; simp
  | cons p ps ih => intro acc; simp [ih, List.append_assoc]

theorem expandPointsExact_length (pts : List (Rat × Rat)) (ts : Rat) :
    (expandPointsExact pts ts).length
      = (pts.map (fun p => (p.1 / ts).floor.toNat)).sum := by
  suffices h : ∀ acc : List Rat,
      (pts.foldl (fun acc p => acc ++ List.replicate ((p.1 / ts).floor.toNat) p.2) acc).length
        = acc.length + (pts.map (fun p => (p.1 / ts).floor.toNat)).sum by
    simpa [expandPointsExact] using h []
  induction pts with
  | nil => intro acc; simp
  | cons p ps ih => intro acc; simp [ih]; omega

theorem findCommonTimeStepExact_pos (pts : List (Rat × Rat)) (h : pts ≠ []) :
    0 < findCommonTimeStepExact pts := by
  obtain ⟨q, qs, rfl⟩ := List.exists_cons_of_ne_nil h
  have hpos := (lcmm_dens_spec q qs).1
  unfold findCommonTimeStepExact
  exact one_div_pos.mpr (by exact_mod_cast hpos)

theorem list_map_sum_congr {α : Type} (l : List α) (f g : α → Rat)
    (h : ∀ a ∈ l, f a = g a) : (l.map f).sum = (l.map g).sum := by
  induction l with
  | nil => rfl
  | cons a as ih =>
    simp only [List.map_cons, List.sum_cons]
    rw [h a (List.mem_cons_self a as), ih (fun b hb => h b (List.mem_cons_of_mem a hb))]

/-- With a non-negative time, the truncated copy count under the exact
quantum is exactly the value of the exact rational division `t / quantum`. -/
theorem copies_exact (pts : List (Rat × Rat)) (h : pts ≠ []) (p : Rat × Rat)
    (hp : p ∈ pts) (hnn : 0 ≤ p.1) :
    (((p.1 / findCommonTimeStepExact pts).floor.toNat : Nat) : Rat)
      = p.1 / findCommonTimeStepExact pts := by
  obtain ⟨k, hk⟩ := quantum_exact pts h p hp
  have hts : 0 < findCommonTimeStepExact pts := findCommonTimeStepExact_pos pts h
  have hk' : p.1 / findCommonTimeStepExact pts = (k : Rat) := by
    rw [hk]
    field_simp
  have hk0 : 0 ≤ k := by
    have h0 : (0 : Rat) ≤ (k : Rat) := by
      rw [← hk']
      exact div_nonneg hnn (le_of_lt hts)
    exact_mod_cast h0
  have hfl : (p.1 / findCommonTimeStepExact pts).floor = k := by
    rw [hk']
    show ⌊((k : Rat) : Rat)⌋ = k
    exact Int.floor_intCast k
  rw [hfl, hk']
  exact_mod_cast Int.toNat_of_nonneg hk0

/-- **C2** (code bug): over the specification's exact engine the claimed law
holds — each sample `(t, v)` contributes exactly `t / quantum` copies (an
exact non-negative integer) and the expansion length equals the sum of
`t / quantum` over the samples in insertion order (first conjunct); and the
concrete Scenario A evaluates on the code exactly as claimed: quantum `0.1`,
expansion `[1, 2, 2, 3, 3, 3]` of length 6, duration `0.6` s (second
conjunct).  But the code quantizes with context-rounded decimal divisions:
at the reachable sample time `2⁻⁵⁰` the exact division of the time by the
program's quantum is not an integer at all, and the code's expansion length
(here 1, from the rounded inner division) differs from the sum of
`t / quantum` (third conjunct). -/
theorem c2_expansion_length :
    (∀ (pts : List (Rat × Rat)), pts ≠ [] → (∀ p ∈ pts, 0 ≤ p.1) →
      (∀ p ∈ pts, (((p.1 / findCommonTimeStepExact pts).floor.toNat : Nat) : Rat)
          = p.1 / findCommonTimeStepExact pts) ∧
      ((expandPointsExact pts (findCommonTimeStepExact pts)).length : Rat)
          = (pts.map (fun p => p.1 / findCommonTimeStepExact pts)).sum) ∧
    ((mkWave [(1/10, 1), (1/5, 2), (3/10, 3)]).tstep = some (1/10) ∧
     (mkWave [(1/10, 1), (1/5, 2), (3/10, 3)]).vlist = [1, 2, 2, 3, 3, 3] ∧
     (mkWave [(1/10, 1), (1/5, 2), (3/10, 3)]).vlist.length = 6 ∧
     (mkWave [(1/10, 1), (1/5, 2), (3/10, 3)]).duration = 3/5) ∧
    ((((1 : Rat)/2^50) / findCommonTimeStep [((1 : Rat)/2^50, 7)]).den ≠ 1 ∧
     (mkWave [((1 : Rat)/2^50, 7)]).vlist.length = 1 ∧
     ((mkWave [((1 : Rat)/2^50, 7)]).vlist.length : Rat)
        ≠ ((1 : Rat)/2^50) / findCommonTimeStep [((1 : Rat)/2^50, 7)]) := by
  refine ⟨?_,
    ⟨by with_unfolding_all decide, by with_unfolding_all decide,
     by with_unfolding_all decide, by with_unfolding_all decide⟩,
    by with_unfolding_all decide, by with_unfolding_all decide,
    by with_unfolding_all decide⟩
  intro pts h hnn
  refine ⟨fun p hp => copies_exact pts h p hp (hnn p hp), ?_⟩
  rw [expandPointsExact_length, Nat.cast_list_sum, List.map_map]
  refine list_map_sum_congr pts _ _ (fun p hp => ?_)
  exact copies_exact pts h p hp (hnn p hp)

/-- Witness for C2 at the Scenario A sample list (exact engine). -/
theorem c2_witness :
    ((expandPointsExact [((1:Rat)/10, 1), (1/5, 2), (3/10, 3)]
        (findCommonTimeStepExact [((1:Rat)/10, 1), (1/5, 2), (3/10, 3)])).length : Rat)
      = ([((1:Rat)/10, 1), (1/5, 2), (3/10, 3)].map
          (fun p => p.1
            / findCommonTimeStepExact [((1:Rat)/10, 1), (1/5, 2), (3/10, 3)])).sum :=
  (c2_expansion_length.1 [((1:Rat)/10, 1), (1/5, 2), (3/10, 3)]
    (by simp) (by intro p hp; fin_cases hp <;> norm_num)).2

/-! ## Play-command protocol -/

/-- **C3**: a play of a defined (quantized) waveform issues exactly one
`prepareVoltageListSweep` call followed by exactly `iterations` calls to
`initiate`, and appends the record `(id, iterations)` to the replay log; in
the concrete program `DEF 1 / 0.5 5 / W 1 2` this is one
`prepare([5], 0.5, 0.1)` call, two `initiate` calls, and replay log
`[(1, 2)]`. -/
theorem c3_play_protocol (s : PState) (ln : Nat) (id : Int) (idx : Nat)
    (wf : Waveform) (ts : Rat) (c : Int) (hid : 0 ≤ id) (hwid : wf.id = id)
    (hlk : dictLookup s.waveforms id = some idx) (hwf : s.heap[idx]? = some wf)
    (hts : wf.tstep = some ts) (hc : 1 ≤ c) :
    (procLine s ln [.word "W", .intLit id, .intLit c]
      = ({ s with
            events := s.events ++
              (Event.prepare wf.vlist ts (1/10) :: List.replicate c.toNat .initiate),
            replay := s.replay ++ [(idx, c.toNat)] }, none) ∧
     replayIds { s with
            events := s.events ++
              (Event.prepare wf.vlist ts (1/10) :: List.replicate c.toNat .initiate),
            replay := s.replay ++ [(idx, c.toNat)] }
        = replayIds s ++ [(id, c.toNat)]) ∧
    ((runProgram [[.word "DEF", .intLit 1], [.decLit (1/2), .intLit 5],
                  [.word "W", .intLit 1, .intLit 2]]).2 = none ∧
     (runProgram [[.word "DEF", .intLit 1], [.decLit (1/2), .intLit 5],
                  [.word "W", .intLit 1, .intLit 2]]).1.events
        = [.prepare [5] (1/2) (1/10), .initiate, .initiate] ∧
     replayIds (runProgram [[.word "DEF", .intLit 1], [.decLit (1/2), .intLit 5],
                  [.word "W", .intLit 1, .intLit 2]]).1 = [(1, 2)]) := by
  have hid' : ¬ id < 0 := not_lt.mpr hid
  have hc' : ¬ c < 1 := not_lt.mpr hc
  have h0 : procLine s ln [.word "W", .intLit id, .intLit c]
      = playOp s ln (.intLit id) [.intLit c] := rfl
  refine ⟨⟨?_, ?_⟩, by with_unfolding_all decide, by with_unfolding_all decide,
    by with_unfolding_all decide⟩
  · rw [h0]
    simp [playOp, playsOf, playWaveform, Token.is_number, Token.toIntOpt,
      hlk, hwf, hts, hid', hc']
  · simp [replayIds, hwf, hwid]

/-- Witness for C3: playing waveform 1 twice from the fixture state. -/
theorem c3_witness :
    procLine stateB 3 [.word "W", .intLit 1, .intLit 2]
      = ({ stateB with
            events := [.prepare [5] (1/2) (1/10), .initiate, .initiate],
            replay := [(1, 2)] }, none) := by
  have h := (c3_play_protocol stateB 3 1 1 wfB (1/2) 2 (by norm_num)
    (by with_unfolding_all decide) (by with_unfolding_all decide)
    (by with_unfolding_all decide) (by with_unfolding_all decide)
    (by norm_num)).1.1
  rw [h]
  with_unfolding_all decide

/-- **C8**: a play command naming a waveform id that is not a key of the
waveform table reports the "does not exist" error with the line number,
issues no device command, leaves the replay log unchanged, and processing
continues with the next line. -/
theorem c8_play_unknown_id (s : PState) (ln : Nat) (op : String) (id : Int)
    (rest : List Token) (hop : op = "W" ∨ op = "w")
    (hlk : dictLookup s.waveforms id = none) :
    procLine s ln (.word op :: .intLit id :: rest)
      = ({ s with events := s.events ++ [.errorMsg .playNotFound ln] }, none) ∧
    (∀ more, processLines s ln ((.word op :: .intLit id :: rest) :: more)
      = processLines { s with events := s.events ++ [.errorMsg .playNotFound (ln + 1)] }
          (ln + 1) more) := by
  have hmain : ∀ m : Nat, procLine s m (.word op :: .intLit id :: rest)
      = ({ s with events := s.events ++ [.errorMsg .playNotFound m] }, none) := by
    intro m
    rcases hop with rfl | rfl
    · have h0 : procLine s m (.word "W" :: .intLit id :: rest)
          = playOp s m (.intLit id) rest := rfl
      rw [h0]
      simp [playOp, Token.is_number, Token.toIntOpt, hlk, errLine, addEvent]
    · have h0 : procLine s m (.word "w" :: .intLit id :: rest)
          = playOp s m (.intLit id) rest := rfl
      rw [h0]
      simp [playOp, Token.is_number, Token.toIntOpt, hlk, errLine, addEvent]
  refine ⟨hmain ln, fun more => ?_⟩
  simp [processLines, hmain (ln + 1)]

/-- Witness for C8: `W 9` with waveform 9 never defined, on the initial
state. -/
theorem c8_witness :
    procLine initState 1 [.word "W", .intLit 9]
      = ({ initState with events := [.errorMsg .playNotFound 1] }, none) := by
  have h := (c8_play_unknown_id initState 1 "W" 9 [] (Or.inl rfl)
    (by with_unfolding_all decide)).1
  rw [h]
  with_unfolding_all decide

/-- **C10**: a play line `W <id> <tok>` on a defined waveform whose third
token is present but non-numeric plays the waveform exactly once — the
malformed iteration count is silently ignored, the default of 1 iteration is
used, and no error is reported for that line. -/
theorem c10_bad_count_ignored (s : PState) (ln : Nat) (id : Int) (idx : Nat)
    (wf : Waveform) (ts : Rat) (t2 : Token) (hid : 0 ≤ id)
    (hlk : dictLookup s.waveforms id = some idx) (hwf : s.heap[idx]? = some wf)
    (hts : wf.tstep = some ts) (ht2 : t2.is_number = false) :
    procLine s ln [.word "W", .intLit id, t2]
      = ({ s with
            events := s.events ++ [.prepare wf.vlist ts (1/10), .initiate],
            replay := s.replay ++ [(idx, 1)] }, none) := by
  have hid' : ¬ id < 0 := not_lt.mpr hid
  have h0 : procLine s ln [.word "W", .intLit id, t2]
      = playOp s ln (.intLit id) [t2] := rfl
  have hp : playsOf [t2] = .ok 1 := by
    simp [playsOf, ht2]
  rw [h0]
  simp [playOp, playWaveform, Token.is_number, Token.toIntOpt,
    hlk, hwf, hts, hp, hid']

/-- Witness for C10: `W 1 x` on the fixture state. -/
theorem c10_witness :
    procLine stateB 3 [.word "W", .intLit 1, .word "x"]
      = ({ stateB with
            events := [.prepare [5] (1/2) (1/10), .initiate],
            replay := [(1, 1)] }, none) := by
  have h := c10_bad_count_ignored stateB 3 1 1 wfB (1/2) (.word "x")
    (by norm_num) (by with_unfolding_all decide) (by with_unfolding_all decide)
    (by with_unfolding_all decide) (by with_unfolding_all decide)
  rw [h]
  with_unfolding_all decide

/-! ## Replay growth (C4) -/

theorem flatten_replicate_double {α : Type} (l : List α) :
    ∀ m, (List.replicate m (l ++ l)).flatten = (List.replicate (2 * m) l).flatten := by
  intro m
  induction m with
  | zero => rfl
  | succ m ih =>
    have h2 : 2 * (m + 1) = (2 * m) + 1 + 1 := by ring
    rw [h2]
    simp only [List.replicate_succ, List.flatten_cons, ih, List.append_assoc]

theorem doubleN_flatten (l : List (Nat × Nat)) (n : Nat) :
    doubleN l n = (List.replicate (2 ^ n) l).flatten := by
  induction n generalizing l with
  | zero => simp [doubleN]
  | succ n ih =>
    show doubleN (l ++ l) n = _
    rw [ih (l ++ l), flatten_replicate_double]
    have h2 : 2 * 2 ^ n = 2 ^ (n + 1) := by
      rw [pow_succ]
      ring
    rw [h2]

theorem doubleN_length (l : List (Nat × Nat)) (n : Nat) :
    (doubleN l n).length = l.length * 2 ^ n := by
  induction n generalizing l with
  | zero => simp [doubleN]
  | succ n ih =>
    show (doubleN (l ++ l) n).length = _
    rw [ih (l ++ l)]
    simp only [List.length_append, pow_succ]
    ring

/-- **C4, counterexample**: on the program `0.1 1 / W 0 / R 2` the replay log
has length 1 when `R 2` executes; the claim predicts a log of length
`k·(n+1) = 3` after re-execution, extended to `k·(n+1)·(n+1) = 9` by `n`
further copies, but the code leaves the log at length `k·2^n = 4`. -/
theorem c4_counterexample :
    (runProgram [[.decLit (1/10), .intLit 1], [.word "W", .intLit 0],
                 [.word "R", .intLit 2]]).1.replay.length = 4 ∧
    ((4 : Nat) = 1 * (2 + 1) → False) ∧
    ((4 : Nat) = 1 * (2 + 1) * (2 + 1) → False) := by
  refine ⟨by with_unfolding_all decide, by decide, by decide⟩

/-- **C4, amended**: executing `Replay(n)` re-executes every PlayRecord in
original order `n` times but appends nothing to the log while doing so
(the emitted events are `n` copies of one pass over the log); afterwards the
log is doubled in place `n` times (`replay.extend(replay)` each iteration),
so it becomes `2^n` concatenated copies of itself, of length `k·2^n` — not
`k·(n+1)` plus `n` further copies. -/
theorem c4_replay_semantics (s : PState) (ln : Nat) (n : Int)
    (evs : List Event) (hn : 1 ≤ n)
    (hrr : replayRound s.heap s.replay = .ok evs) :
    procLine s ln [.word "R", .intLit n]
      = ({ s with events := s.events ++ (List.replicate n.toNat evs).flatten,
                  replay := doubleN s.replay n.toNat }, none) ∧
    doubleN s.replay n.toNat = (List.replicate (2 ^ n.toNat) s.replay).flatten ∧
    (doubleN s.replay n.toNat).length = s.replay.length * 2 ^ n.toNat := by
  have hn' : ¬ n < 1 := not_lt.mpr hn
  have h0 : procLine s ln [.word "R", .intLit n] = replayOp s ln (.intLit n) := rfl
  refine ⟨?_, doubleN_flatten s.replay n.toNat, doubleN_length s.replay n.toNat⟩
  rw [h0]
  simp [replayOp, Token.is_number, Token.toIntOpt, hn', hrr]

/-- Witness for C4 at the fixture state with one replay record and `R 2`. -/
theorem c4_witness :
    procLine stateC 4 [.word "R", .intLit 2]
      = ({ stateC with
            events := [.prepare [5] (1/2) (1/10), .initiate, .initiate,
                       .prepare [5] (1/2) (1/10), .initiate, .initiate],
            replay := [(1, 2), (1, 2), (1, 2), (1, 2)] }, none) := by
  have h := (c4_replay_semantics stateC 4 2
    [.prepare [5] (1/2) (1/10), .initiate, .initiate]
    (by norm_num) (by with_unfolding_all rfl)).1
  rw [h]
  with_unfolding_all decide

/-! ## Re-defining an existing waveform id (C5) -/

theorem dictLookup_dictSet_self (d : List (Int × Nat)) (k : Int) (v : Nat) :
    dictLookup (dictSet d k v) k = some v := by
  induction d with
  | nil => simp [dictSet, dictLookup]
  | cons p ps ih =>
    by_cases h : p.1 = k
    · simp [dictSet, dictLookup, h]
    · simp [dictSet, dictLookup, h, ih]

theorem getD_append_singleton (l : List Waveform) (x d : Waveform) :
    (l ++ [x]).getD l.length d = x := by
  induction l with
  | nil => rfl
  | cons a as ih =>
    simpa only [List.cons_append, List.length_cons, List.getD_cons_succ] using ih

/-- **C5, counterexample**: after `DEF 1 / 0.5 5` the waveform bound to id 1
holds the sample `(0.5, 5)`; processing `DEF 1` again binds id 1 to a fresh
object whose sample list is empty — the recorded samples are *not* left
unchanged. -/
theorem c5_counterexample :
    ((runProgram [[.word "DEF", .intLit 1], [.decLit (1/2), .intLit 5]]).1.heap.getD 1
        (Waveform.mkNew (-1))).points = [(1/2, 5)] ∧
    dictLookup (runProgram [[.word "DEF", .intLit 1],
        [.decLit (1/2), .intLit 5]]).1.waveforms 1 = some 1 ∧
    dictLookup (runProgram [[.word "DEF", .intLit 1], [.decLit (1/2), .intLit 5],
        [.word "DEF", .intLit 1]]).1.waveforms 1 = some 2 ∧
    ((runProgram [[.word "DEF", .intLit 1], [.decLit (1/2), .intLit 5],
        [.word "DEF", .intLit 1]]).1.heap.getD 2 (Waveform.mkNew (-1))).points = [] ∧
    (([] : List (Rat × Rat)) = [(1/2, 5)] → False) := by
  refine ⟨?_, ?_, ?_, ?_, ?_⟩ <;> with_unfolding_all decide

/-- **C5, amended**: processing `DEF id` for an id already present does
*not* leave the waveform's data unchanged: it allocates a fresh empty
waveform (no samples, empty expansion, zero duration), rebinds the id to it,
and repositions the current-waveform pointer to it. -/
theorem c5_redefine_resets (s : PState) (ln : Nat) (id : Int) (hid : 0 ≤ id)
    (hpresent : dictLookup s.waveforms id ≠ none) :
    procLine s ln [.word "DEF", .intLit id]
      = ({ s with heap := s.heap ++ [Waveform.mkNew id],
                  waveforms := dictSet s.waveforms id s.heap.length,
                  current := id }, none) ∧
    dictLookup (dictSet s.waveforms id s.heap.length) id = some s.heap.length ∧
    (s.heap ++ [Waveform.mkNew id]).getD s.heap.length (Waveform.mkNew (-1))
      = Waveform.mkNew id := by
  have hid' : ¬ id < 0 := not_lt.mpr hid
  have h0 : procLine s ln [.word "DEF", .intLit id]
      = defOp s ln (.intLit id) := rfl
  refine ⟨?_, dictLookup_dictSet_self s.waveforms id s.heap.length,
    getD_append_singleton s.heap (Waveform.mkNew id) (Waveform.mkNew (-1))⟩
  rw [h0]
  simp [defOp, Token.is_number, Token.toIntOpt, hid']

/-- Witness for C5: re-defining the already-present id 1 on the fixture
state. -/
theorem c5_witness :
    procLine stateB 3 [.word "DEF", .intLit 1]
      = ({ stateB with heap := [Waveform.mkNew 0, wfB, Waveform.mkNew 1],
                       waveforms := [(0, 0), (1, 2)], current := 1 }, none) := by
  have h := (c5_redefine_resets stateB 3 1 (by norm_num)
    (by with_unfolding_all decide)).1
  rw [h]
  with_unfolding_all decide

/-! ## Malformed lines (C6) -/

/-- **C6, counterexample**: the program `D 1.5 / 0.1 1` aborts: `1.5` passes
the `is_number` guard but `int("1.5")` raises an uncaught `ValueError`, so no
error is reported for that line, the next (valid) line is never processed,
and the whole run dies — the claim's "a single bad line never aborts the
whole program" is false for non-integer numeric ids. -/
theorem c6_counterexample :
    runProgram [[.word "D", .decLit (3/2)], [.decLit (1/10), .intLit 1]]
      = (initState, some Crash.intValueError) := by
  with_unfolding_all decide

/-- **C6, amended**: malformed lines with a *non-numeric* id token (for `D`,
`DEF`, `W`), an unknown waveform id, or non-numeric sample data are reported
as recoverable errors carrying the 1-based line number, and processing
continues with the next line; but a line whose id token is numeric yet not an
integer literal (such as `D 1.5` or `W 2.5`) raises an unhandled conversion
error that aborts the whole program. -/
theorem c6_malformed_lines (s : PState) (ln : Nat) :
    (∀ (n : Int) (w : String) (rest : List Token),
      procLine s ln (.intLit n :: .word w :: rest)
        = (errLine s .nonNumericData ln, none)) ∧
    (∀ (v : String) (rest : List Token),
      procLine s ln (.word "D" :: .word v :: rest)
        = (errLine s .defNoId ln, none) ∧
      procLine s ln (.word "DEF" :: .word v :: rest)
        = (errLine s .defNoId ln, none)) ∧
    (∀ (v : String) (rest : List Token),
      procLine s ln (.word "W" :: .word v :: rest)
        = (errLine s .playNoId ln, none)) ∧
    (∀ (id : Int) (rest : List Token), dictLookup s.waveforms id = none →
      procLine s ln (.word "W" :: .intLit id :: rest)
        = (errLine s .playNotFound ln, none)) ∧
    (∀ (q : Rat) (rest : List Token),
      procLine s ln (.word "D" :: .decLit q :: rest)
        = (s, some .intValueError) ∧
      procLine s ln (.word "W" :: .decLit q :: rest)
        = (s, some .intValueError)) ∧
    (∀ (line : List Token) (more : List (List Token)) (s1 : PState),
      procLine s (ln + 1) line = (s1, none) →
      processLines s ln (line :: more) = processLines s1 (ln + 1) more) := by
  refine ⟨fun n w rest => rfl, fun v rest => ⟨rfl, rfl⟩, fun v rest => rfl,
    ?_, fun q rest => ⟨rfl, rfl⟩, ?_⟩
  · intro id rest hlk
    have h0 : procLine s ln (.word "W" :: .intLit id :: rest)
        = playOp s ln (.intLit id) rest := rfl
    rw [h0]
    simp [playOp, Token.is_number, Token.toIntOpt, hlk]
  · intro line more s1 hline
    simp [processLines, hline]

/-- Witness for C6 at concrete malformed lines on the initial state. -/
theorem c6_witness :
    procLine initState 1 [.intLit 3, .word "x"]
      = (errLine initState .nonNumericData 1, none) ∧
    procLine initState 1 [.word "W", .intLit 9]
      = (errLine initState .playNotFound 1, none) ∧
    procLine initState 1 [.word "D", .decLit (3/2)]
      = (initState, some .intValueError) := by
  refine ⟨(c6_malformed_lines initState 1).1 3 "x" [],
    (c6_malformed_lines initState 1).2.2.2.1 9 [] (by with_unfolding_all decide),
    ((c6_malformed_lines initState 1).2.2.2.2.1 (3/2) []).1⟩

/-! ## Empty and all-zero waveforms (C7) -/

theorem foldl_lcm_py_ones : ∀ n : Nat, (List.replicate n 1).foldl lcm_py 1 = 1 := by
  intro n
  induction n with
  | zero => rfl
  | succ n ih =>
    have h11 : lcm_py 1 1 = 1 := by
      rw [lcm_py_eq]
      simp
    simpa [List.replicate_succ, h11] using ih

theorem lcmm_ones (n : Nat) : lcmm (List.replicate (n + 1) 1) = 1 := by
  simp only [List.replicate_succ, lcmm]
  exact foldl_lcm_py_ones n

/-- A waveform all of whose sample times are 0 gets quantum 1 and an empty
expansion, with no error of any kind. -/
theorem allZeroTimes_waveform (vs : List Rat) (hvs : vs ≠ []) :
    (mkWave (vs.map (fun v => ((0 : Rat), v)))).tstep = some 1 ∧
    (mkWave (vs.map (fun v => ((0 : Rat), v)))).vlist = [] := by
  have hne : vs.map (fun v => ((0 : Rat), v)) ≠ [] := by
    simpa using hvs
  obtain ⟨hts, hvl, _⟩ := mkWave_fields _ hne
  have hden0 : ((0 : Rat)).den = 1 := rfl
  have hdens : (vs.map (fun v => ((0 : Rat), v))).map (fun p => p.1.den)
      = List.replicate vs.length 1 := by
    simp [List.map_map, Function.comp_def, hden0, List.map_const']
  have hts1 : findCommonTimeStep (vs.map (fun v => ((0 : Rat), v))) = 1 := by
    rw [findCommonTimeStep_eq, hdens]
    cases vs with
    | nil => exact absurd rfl hvs
    | cons v vs' =>
      simp only [List.length_cons, lcmm_ones]
      with_unfolding_all decide
  refine ⟨by rw [hts, hts1], ?_⟩
  rw [hvl, hts1, expandPoints_eq_flatten]
  have hz : (decDiv 0 1).floor = 0 := by with_unfolding_all decide
  rw [List.flatten_eq_nil_iff]
  intro l hl
  obtain ⟨p, hp, rfl⟩ := List.mem_map.mp hl
  obtain ⟨v, _, rfl⟩ := List.mem_map.mp hp
  simp [hz]

/-- **C7, counterexample**: playing the empty waveform 0 raises an uncaught
`AttributeError` (`tstep` was never set) that aborts the whole run before any
device command — there is no recoverable `EmptyWaveformError` and processing
does not continue; and a waveform whose only sample time is 0 raises no
`DegenerateQuantumError` at all: it is quantized with quantum 1, an empty
expansion, and is played (device commands are issued). -/
theorem c7_counterexample :
    runProgram [[.word "W", .intLit 0]] = (initState, some Crash.missingTstep) ∧
    (runProgram [[.intLit 0, .intLit 5], [.word "W", .intLit 0]]).2 = none ∧
    (runProgram [[.intLit 0, .intLit 5], [.word "W", .intLit 0]]).1.events
      = [Event.prepare [] 1 (1/10), Event.initiate] := by
  refine ⟨?_, ?_, ?_⟩ <;> with_unfolding_all decide

/-- **C7, amended**: playing a waveform with zero samples raises an uncaught
attribute error that aborts the whole run (before any device command is
issued, since the missing `tstep` is read while evaluating the call's
arguments); and a non-empty waveform all of whose recorded times are 0 is
quantized without any error, with quantum 1 and an empty expansion (and is
playable). -/
theorem c7_empty_and_degenerate (s : PState) (ln : Nat) (id : Int) (idx : Nat)
    (wf : Waveform) (rest : List Token) (plays : Nat) (hid : 0 ≤ id)
    (hlk : dictLookup s.waveforms id = some idx) (hwf : s.heap[idx]? = some wf)
    (hts : wf.tstep = none) (hplays : playsOf rest = .ok plays) :
    procLine s ln (.word "W" :: .intLit id :: rest) = (s, some .missingTstep) ∧
    (∀ vs : List Rat, vs ≠ [] →
      (mkWave (vs.map (fun v => ((0 : Rat), v)))).tstep = some 1 ∧
      (mkWave (vs.map (fun v => ((0 : Rat), v)))).vlist = []) := by
  refine ⟨?_, allZeroTimes_waveform⟩
  have hid' : ¬ id < 0 := not_lt.mpr hid
  have h0 : procLine s ln (.word "W" :: .intLit id :: rest)
      = playOp s ln (.intLit id) rest := rfl
  rw [h0]
  simp [playOp, playWaveform, Token.is_number, Token.toIntOpt,
    hlk, hwf, hts, hplays, hid']

/-- Witness for C7: playing the empty waveform 0 from the initial state, and
the all-zero-times waveform `[(0, 5)]`. -/
theorem c7_witness :
    (procLine initState 1 [.word "W", .intLit 0] = (initState, some .missingTstep) ∧
     (∀ vs : List Rat, vs ≠ [] →
       (mkWave (vs.map (fun v => ((0 : Rat), v)))).tstep = some 1 ∧
       (mkWave (vs.map (fun v => ((0 : Rat), v)))).vlist = [])) ∧
    (mkWave [((0 : Rat), 5)]).vlist = [] := by
  have h := c7_empty_and_degenerate initState 1 0 0 (Waveform.mkNew 0) [] 1
    (le_refl 0) (by with_unfolding_all decide) (by with_unfolding_all decide)
    (by with_unfolding_all decide) (by with_unfolding_all rfl)
  refine ⟨h, ?_⟩
  have h5 := h.2 [5] (by simp)
  simpa using h5.2

/-! ## The current-waveform invariant (C9) -/

theorem dictLookup_mem : ∀ (d : List (Int × Nat)) (k : Int) (v : Nat),
    dictLookup d k = some v → (k, v) ∈ d := by
  intro d
  induction d with
  | nil => intro k v h; simp [dictLookup] at h
  | cons p ps ih =>
    intro k v h
    simp only [dictLookup] at h
    by_cases hp : p.1 = k
    · rw [if_pos hp] at h
      have hv : p.2 = v := Option.some.inj h
      have hpkv : p = (k, v) := by
        obtain ⟨a, b⟩ := p
        simp only at hp hv
        rw [hp, hv]
      rw [← hpkv]
      exact List.mem_cons_self p ps
    · rw [if_neg hp] at h
      exact List.mem_cons_of_mem p (ih k v h)

theorem dictSet_mem : ∀ (d : List (Int × Nat)) (k : Int) (v : Nat) (p : Int × Nat),
    p ∈ dictSet d k v → p ∈ d ∨ p = (k, v) := by
  intro d k v
  induction d with
  | nil =>
    intro p hp
    simp [dictSet] at hp
    right
    exact hp
  | cons q qs ih =>
    intro p hp
    simp only [dictSet] at hp
    by_cases hq : q.1 = k
    · rw [if_pos hq] at hp
      rcases List.mem_cons.mp hp with h | h
      · right; exact h
      · left; exact List.mem_cons_of_mem q h
    · rw [if_neg hq] at hp
      rcases List.mem_cons.mp hp with h | h
      · left; rw [h]; exact List.mem_cons_self q qs
      · rcases ih p h with h1 | h1
        · left; exact List.mem_cons_of_mem q h1
        · right; exact h1

theorem doubleN_mem {l : List (Nat × Nat)} {n : Nat} {r : Nat × Nat}
    (h : r ∈ doubleN l n) : r ∈ l := by
  rw [doubleN_flatten] at h
  obtain ⟨l1, hl1, hr⟩ := List.mem_flatten.mp h
  rw [List.eq_of_mem_replicate hl1] at hr
  exact hr

theorem isHash_false_of_is_number {t : Token} (h : t.is_number = true) :
    t.isHash = false := by
  cases t <;> simp_all [Token.is_number, Token.isHash]

theorem defOp_inv (s : PState) (ln : Nat) (t1 : Token) (h : StateInv s) :
    StateInv (defOp s ln t1).1 := by
  obtain ⟨h1, h2, h3⟩ := h
  cases t1 with
  | intLit n =>
    by_cases hn : n < 0
    · simp only [defOp, Token.is_number, Token.toIntOpt, if_pos hn, if_true]
      exact ⟨h1, h2, h3⟩
    · simp only [defOp, Token.is_number, Token.toIntOpt, if_neg hn, if_true]
      refine ⟨?_, ?_, ?_⟩
      · simp [dictLookup_dictSet_self]
      · intro p hp
        rcases dictSet_mem _ _ _ p hp with hmem | heq
        · have := h2 p hmem
          simp only [List.length_append, List.length_cons, List.length_nil]
          omega
        · rw [heq]
          simp only [List.length_append, List.length_cons, List.length_nil]
          omega
      · intro r hr
        have := h3 r hr
        simp only [List.length_append, List.length_cons, List.length_nil]
        omega
  | decLit q => exact ⟨h1, h2, h3⟩
  | word w => exact ⟨h1, h2, h3⟩
  | hash => exact ⟨h1, h2, h3⟩

theorem outOp_inv (s : PState) (t1 : Token) (h : StateInv s) :
    StateInv (outOp s t1).1 := by
  obtain ⟨h1, h2, h3⟩ := h
  cases t1 with
  | word w =>
    simp only [outOp]
    by_cases hON : w = "ON" ∨ w = "on"
    · rw [if_pos hON]; exact ⟨h1, h2, h3⟩
    · rw [if_neg hON]
      by_cases hOFF : w = "OFF" ∨ w = "off"
      · rw [if_pos hOFF]; exact ⟨h1, h2, h3⟩
      · rw [if_neg hOFF]; exact ⟨h1, h2, h3⟩
  | intLit n => exact ⟨h1, h2, h3⟩
  | decLit q => exact ⟨h1, h2, h3⟩
  | hash => exact ⟨h1, h2, h3⟩

theorem playOp_inv (s : PState) (ln : Nat) (t1 : Token) (rest : List Token)
    (h : StateInv s) : StateInv (playOp s ln t1 rest).1 := by
  obtain ⟨h1, h2, h3⟩ := h
  cases t1 with
  | intLit n =>
    simp only [playOp, Token.is_number, Token.toIntOpt, if_true]
    split
    · exact ⟨h1, h2, h3⟩
    · split
      · exact ⟨h1, h2, h3⟩
      · split
        · exact ⟨h1, h2, h3⟩
        · split
          · exact ⟨h1, h2, h3⟩
          · split
            · exact ⟨h1, h2, h3⟩
            · rename_i hcond o1 idx hlk o2 wf hwf o3 plays hpl o4 evs hpw
              refine ⟨h1, h2, ?_⟩
              intro r hr
              rcases List.mem_append.mp hr with hmem | hmem
              · exact h3 r hmem
              · rw [List.mem_singleton.mp hmem]
                exact h2 (n, idx) (dictLookup_mem _ _ _ hlk)
  | decLit q => exact ⟨h1, h2, h3⟩
  | word w => exact ⟨h1, h2, h3⟩
  | hash => exact ⟨h1, h2, h3⟩

theorem replayOp_inv (s : PState) (ln : Nat) (t1 : Token) (h : StateInv s) :
    StateInv (replayOp s ln t1).1 := by
  obtain ⟨h1, h2, h3⟩ := h
  cases t1 with
  | intLit n =>
    simp only [replayOp, Token.is_number, Token.toIntOpt, if_true]
    split
    · exact ⟨h1, h2, h3⟩
    · split
      · exact ⟨h1, h2, h3⟩
      · refine ⟨h1, h2, ?_⟩
        intro r hr
        exact h3 r (doubleN_mem hr)
  | decLit q => exact ⟨h1, h2, h3⟩
  | word w => exact ⟨h1, h2, h3⟩
  | hash => exact ⟨h1, h2, h3⟩

theorem procLine_inv (s : PState) (ln : Nat) (toks : List Token)
    (h : StateInv s) : StateInv (procLine s ln toks).1 := by
  obtain ⟨h1, h2, h3⟩ := h
  match toks with
  | [] => exact ⟨h1, h2, h3⟩
  | [t] => exact ⟨h1, h2, h3⟩
  | t0 :: t1 :: rest =>
    simp only [procLine]
    split
    · exact ⟨h1, h2, h3⟩
    · split
      · split
        · split
          · exact ⟨h1, h2, h3⟩
          · split
            · exact ⟨h1, h2, h3⟩
            · refine ⟨h1, ?_, ?_⟩
              · intro p hp
                have := h2 p hp
                simpa [List.length_set] using this
              · intro r hr
                have := h3 r hr
                simpa [List.length_set] using this
        · exact ⟨h1, h2, h3⟩
      · split
        · split
          · exact defOp_inv s ln t1 ⟨h1, h2, h3⟩
          · split
            · exact outOp_inv s t1 ⟨h1, h2, h3⟩
            · split
              · exact playOp_inv s ln t1 rest ⟨h1, h2, h3⟩
              · split
                · exact replayOp_inv s ln t1 ⟨h1, h2, h3⟩
                · exact ⟨h1, h2, h3⟩
        · exact ⟨h1, h2, h3⟩

theorem processLines_inv : ∀ (lines : List (List Token)) (s : PState) (ln : Nat),
    StateInv s → StateInv (processLines s ln lines).1 := by
  intro lines
  induction lines with
  | nil => intro s ln h; exact h
  | cons line rest ih =>
    intro s ln h
    simp only [processLines]
    split
    · rename_i o s1 c hp
      have h1 := procLine_inv s (ln + 1) line h
      rw [hp] at h1
      exact h1
    · rename_i o s1 hp
      have h1 := procLine_inv s (ln + 1) line h
      rw [hp] at h1
      exact ih s1 (ln + 1) h1

theorem initState_inv : StateInv initState := by
  refine ⟨by decide, ?_, ?_⟩
  · intro p hp
    rw [List.mem_singleton.mp hp]
    decide
  · intro r hr
    cases hr

/-- With the invariant, a data line always finds the current waveform: the
dict lookup and the heap dereference both succeed and the line appends the
sample to that waveform without any error. -/
theorem data_line_never_fails (s : PState) (ln : Nat) (t0 t1 : Token)
    (rest : List Token) (hInv : StateInv s) (h0 : t0.is_number = true)
    (h1 : t1.is_number = true) :
    ∃ idx wf, dictLookup s.waveforms s.current = some idx ∧
      s.heap[idx]? = some wf ∧
      procLine s ln (t0 :: t1 :: rest)
        = ({ s with
              heap := s.heap.set idx (wf.addPoint t0.decimalValue t1.decimalValue)
            }, none) := by
  obtain ⟨hc, hb, _⟩ := hInv
  obtain ⟨idx, hidx⟩ := Option.isSome_iff_exists.mp hc
  have hlt : idx < s.heap.length := hb (s.current, idx) (dictLookup_mem _ _ _ hidx)
  obtain ⟨wf, hwf⟩ : ∃ wf, s.heap[idx]? = some wf :=
    ⟨s.heap[idx], List.getElem?_eq_getElem hlt⟩
  refine ⟨idx, wf, hidx, hwf, ?_⟩
  have hh0 : t0.isHash = false := isHash_false_of_is_number h0
  have hh1 : t1.isHash = false := isHash_false_of_is_number h1
  simp only [procLine, hh0, hh1, h0, h1, hidx, hwf, Bool.or_self, Bool.false_or,
    if_true, if_false]
  simp

/-- **C9**: waveform 0 exists from the start and the current-waveform pointer
is always a key of the waveform map: the invariant holds initially, is
preserved by every processed line (and by whole programs), and consequently
every sample line finds its target waveform — the sample-append lookup never
fails. -/
theorem c9_current_always_defined :
    StateInv initState ∧
    (∀ (s : PState) (ln : Nat) (toks : List Token), StateInv s →
      StateInv (procLine s ln toks).1) ∧
    (∀ (s : PState) (ln : Nat) (lines : List (List Token)), StateInv s →
      StateInv (processLines s ln lines).1) ∧
    (∀ (s : PState) (ln : Nat) (t0 t1 : Token) (rest : List Token), StateInv s →
      t0.is_number = true → t1.is_number = true →
      ∃ idx wf, dictLookup s.waveforms s.current = some idx ∧
        s.heap[idx]? = some wf ∧
        procLine s ln (t0 :: t1 :: rest)
          = ({ s with
                heap := s.heap.set idx (wf.addPoint t0.decimalValue t1.decimalValue)
              }, none)) :=
  ⟨initState_inv, procLine_inv,
   fun s ln lines h => processLines_inv lines s ln h,
   fun s ln t0 t1 rest hInv h0 h1 =>
     data_line_never_fails s ln t0 t1 rest hInv h0 h1⟩

/-- Witness for C9: the invariant holds at the start and after a concrete
sample line. -/
theorem c9_witness :
    StateInv initState ∧ StateInv (procLine initState 1 [.intLit 0, .intLit 1]).1 :=
  ⟨c9_current_always_defined.1,
   c9_current_always_defined.2.1 initState 1 [.intLit 0, .intLit 1]
     c9_current_always_defined.1⟩
